import Mathlib

/-!
Shallow embedding of the MPD → Spotify audio-feature enrichment pipeline
(source files `src/dataETL/extractors.py`, `src/dataETL/spotify_client.py`,
`scripts/enrich_dataset.py`) together with proofs of the specification
claims.

Modelling conventions:
* Python dicts are insertion-ordered association lists with unique keys;
  `findA`, `insertA`, `updateA` mirror `d.get(k)` / `d[k] = v` / `d.update`.
* The remote service is an explicit oracle parameter (its response to a
  batch call), so theorems quantify over every possible service behaviour.
* `time.sleep` is recorded as data (the `slept` field), file writes are
  recorded as a list of `WriteEvent`s, and a Python exception escaping a
  function is an `Except.error`.
* The `Retry-After` header is modelled as `Option Nat` (absent, or present
  with a numeric value), matching `int(e.headers.get("Retry-After", 60))`.
-/

namespace Enrich

/-- Association-list lookup, mirroring Python `d.get(k)` (and `k in d`,
which is `(findA d k).isSome`). -/
def findA {α : Type} : List (String × α) → String → Option α
  | [], _ => none
  | (a, v) :: t, k => if a = k then some v else findA t k

/-- Association-list store, mirroring Python `d[k] = v`: replaces the value
in place if the key is present, otherwise appends the new binding. -/
def insertA {α : Type} (k : String) (v : α) : List (String × α) → List (String × α)
  | [] => [(k, v)]
  | (a, w) :: t => if a = k then (k, v) :: t else (a, w) :: insertA k v t

/-- Association-list merge, mirroring Python `d.update(other)`: stores the
bindings of `new` into `m` in order. -/
def updateA {α : Type} (m new : List (String × α)) : List (String × α) :=
  new.foldl (fun acc kv => insertA kv.1 kv.2 acc) m

/-- Keys of an association list, in order. -/
def keysA {α : Type} (m : List (String × α)) : List String :=
  m.map Prod.fst

/-- Number of non-null values, mirroring
`len([f for f in d.values() if f is not None])`. -/
def countSomeA {α : Type} (m : List (String × Option α)) : Nat :=
  (m.filter (fun kv => kv.2.isSome)).length

/-- Sum of the values of a counter, mirroring `sum(d.values())`. -/
def sumValsA (m : List (String × Nat)) : Nat :=
  (m.map Prod.snd).sum

/-!
## Catalog client (`src/dataETL/spotify_client.py`)
-/

/-- Feature object returned by the remote service for one track.  The code
reads exactly the twelve numeric fields below; `id` stands for the extra
fields of the response that the code does not copy. -/
structure ApiFeatures where
  acousticness : ℚ
  danceability : ℚ
  energy : ℚ
  instrumentalness : ℚ
  liveness : ℚ
  loudness : ℚ
  speechiness : ℚ
  tempo : ℚ
  valence : ℚ
  key : Int
  mode : Int
  time_signature : Int
  id : String
deriving DecidableEq

/-- The `AudioFeatureRecord` the client stores: the dict literal built at
`spotify_client.py` lines 117-130. -/
structure AudioFeatures where
  acousticness : ℚ
  danceability : ℚ
  energy : ℚ
  instrumentalness : ℚ
  liveness : ℚ
  loudness : ℚ
  speechiness : ℚ
  tempo : ℚ
  valence : ℚ
  key : Int
  mode : Int
  time_signature : Int
deriving DecidableEq

/-- Field-for-field translation of a service feature object into the stored
record (`spotify_client.py` lines 117-130). -/
def toAudioFeatures (f : ApiFeatures) : AudioFeatures :=
  ⟨f.acousticness, f.danceability, f.energy, f.instrumentalness, f.liveness,
   f.loudness, f.speechiness, f.tempo, f.valence, f.key, f.mode, f.time_signature⟩

/-- Splitting a character list at a separator, mirroring Python
`str.split(sep)` for a one-character separator (strings are handled at the
character-list level throughout so that every definition computes). -/
def splitChars (sep : Char) : List Char → List (List Char)
  | [] => [[]]
  | c :: t =>
    if c = sep then [] :: splitChars sep t
    else
      match splitChars sep t with
      | [] => [[c]]
      | seg :: rest => (c :: seg) :: rest

/-- Embedding of `extract_track_id_from_uri` (`spotify_client.py` lines
85-90): `track_uri.split(":")[-1]` — the last colon-separated segment —
when the URI carries the `spotify:track:` prefix (Python `startswith`,
modelled as a character-list prefix test), the unchanged string
otherwise. -/
def extract_track_id_from_uri (track_uri : String) : String :=
  if List.isPrefixOf "spotify:track:".data track_uri.data then
    String.mk ((splitChars ':' track_uri.data).getLastD [])
  else
    track_uri

/-- Modelled from the spec: the claim describes normalization as
"stripping a 'spotify:track:' prefix if present, otherwise unchanged";
this definition follows those words, for comparison with
`extract_track_id_from_uri`. -/
def spec_normalize_uri (track_uri : String) : String :=
  if List.isPrefixOf "spotify:track:".data track_uri.data then
    String.mk (track_uri.data.drop "spotify:track:".data.length)
  else
    track_uri

/-- Python exceptions that can arise inside `get_audio_features_batch`:
a `SpotifyException` (HTTP status plus optional numeric `Retry-After`
header), an `IndexError` from the result-mapping loop, or any other
unexpected exception. -/
inductive PyExn where
  | spotify (status : Nat) (retryAfter : Option Nat)
  | indexErr
  | otherExn
deriving DecidableEq

/-- Behaviour of the remote service for one `sp.audio_features` call:
a per-slot list of feature objects (or explicit nulls), a raised
`SpotifyException`, or some other raised exception. -/
inductive ApiResult where
  | ok (l : List (Option ApiFeatures))
  | spotifyError (status : Nat) (retryAfter : Option Nat)
  | otherError
deriving DecidableEq

/-- The result-mapping loop of `get_audio_features_batch` (lines 112-134):
`for i, features in enumerate(features_list): result[track_uris[i]] = ...`.
Iteration is driven by the response list; if it is longer than the URI
list, indexing `track_uris[i]` raises `IndexError`. -/
def mapResultsGo (acc : List (String × Option AudioFeatures)) :
    List String → List (Option ApiFeatures) →
    Except PyExn (List (String × Option AudioFeatures))
  | _, [] => .ok acc
  | [], _ :: _ => .error .indexErr
  | u :: us, f :: fs => mapResultsGo (insertA u (f.map toAudioFeatures) acc) us fs

/-- The `try` block of `get_audio_features_batch` (lines 107-134): call the
service and map the response back onto the original URIs; any raised
exception becomes an `Except.error`. -/
def audioFeaturesCall (uris : List String) (api : ApiResult) :
    Except PyExn (List (String × Option AudioFeatures)) :=
  match api with
  | .ok fl => mapResultsGo [] uris fl
  | .spotifyError s ra => .error (.spotify s ra)
  | .otherError => .error .otherExn

/-- Observable outcome of one `get_audio_features_batch` call: the track
IDs sent to the service, the returned URI-keyed map, and the duration of
the rate-limit sleep if one happened. -/
structure BatchCall where
  sent : List String
  result : List (String × Option AudioFeatures)
  slept : Option Nat
deriving DecidableEq

/-- Embedding of `get_audio_features_batch` (`spotify_client.py` lines
92-147), parametrized by the service behaviour `api`.  An `Except.error`
result would mean the Python function let an exception escape to its
caller. -/
def get_audio_features_batch (track_uris : List String) (api : ApiResult) :
    Except PyExn BatchCall :=
  if track_uris.isEmpty then .ok ⟨[], [], none⟩
  else
    let uris := if track_uris.length > 100 then track_uris.take 100 else track_uris
    let ids := uris.map extract_track_id_from_uri
    match audioFeaturesCall uris api with
    | .ok m => .ok ⟨ids, m, none⟩
    | .error (.spotify s ra) =>
        if s = 429 then .ok ⟨ids, [], some (ra.getD 60)⟩
        else .ok ⟨ids, [], none⟩
    | .error .indexErr => .ok ⟨ids, [], none⟩
    | .error .otherExn => .ok ⟨ids, [], none⟩

/-!
## Enrichment orchestrator (`collect_all_audio_features`)
-/

/-- Outcome of one batch call as seen by the orchestrator's `try` block:
the call returned a map, or something in the block raised. -/
inductive CallOutcome where
  | ret (bf : List (String × Option AudioFeatures))
  | raise
deriving DecidableEq

/-- A file write performed by the orchestrator: a feature map written by
`save_features_to_file`, or the failed-URI list written at the end. -/
inductive WriteEvent where
  | featuresFile (path : String) (content : List (String × Option AudioFeatures))
  | failedFile (path : String) (content : List String)
deriving DecidableEq

/-- Loop state of `collect_all_audio_features`: `all_features`,
`failed_tracks`, the writes and batch calls performed so far,
the number of chunks processed, and `successful_batches`. -/
structure OState where
  features : List (String × Option AudioFeatures)
  failed : List String
  writes : List WriteEvent
  calls : List (List String)
  batchNum : Nat
  successfulBatches : Nat
deriving DecidableEq

/-- The failure test at line 184: `uri in batch_features and
batch_features[uri] is not None`. -/
def isHit (bf : List (String × Option AudioFeatures)) (u : String) : Bool :=
  match findA bf u with
  | some (some _) => true
  | _ => false

/-- The periodic checkpoint (lines 195-196): every 10th batch, write the
accumulated map to `output_file + ".tmp"`. -/
def applyCheckpoint (outputFile : String) (doCkpt : Bool) (st : OState) : OState :=
  if doCkpt then
    { st with writes := st.writes ++ [.featuresFile (outputFile ++ ".tmp") st.features] }
  else st

/-- One iteration of the batch loop (lines 168-207), parametrized by the
oracle `call` giving each batch call's outcome (indexed by the number of
calls made so far). -/
def processChunk (call : Nat → List String → CallOutcome) (outputFile : String)
    (st : OState) (batch : List String) : OState :=
  let bn := st.batchNum + 1
  match call st.batchNum batch with
  | .ret bf =>
      if bf.isEmpty then
        applyCheckpoint outputFile (bn % 10 == 0)
          { st with failed := st.failed ++ batch,
                    calls := st.calls ++ [batch], batchNum := bn }
      else
        applyCheckpoint outputFile (bn % 10 == 0)
          { st with features := updateA st.features bf,
                    failed := st.failed ++ batch.filter (fun u => !(isHit bf u)),
                    calls := st.calls ++ [batch], batchNum := bn,
                    successfulBatches := st.successfulBatches + 1 }
  | .raise =>
      { st with failed := st.failed ++ batch,
                calls := st.calls ++ [batch], batchNum := bn }

/-- Fuel-driven chunking; `chunkList` supplies `l.length` as fuel. -/
def chunkGo {α : Type} (B : Nat) : Nat → List α → List (List α)
  | 0, _ => []
  | _, [] => []
  | fuel + 1, a :: t => (a :: t).take B :: chunkGo B fuel ((a :: t).drop B)

/-- The chunks visited by `range(0, len(track_uris), batch_size)` with the
slice `track_uris[i : i + batch_size]` (lines 168-171): the successive
contiguous slices of length `B`.  For `B = 0` Python's `range` would raise
`ValueError`; the claims only concern `B > 0`. -/
def chunkList {α : Type} (B : Nat) (l : List α) : List (List α) :=
  if B = 0 then [] else chunkGo B l.length l

/-- The batch loop of `collect_all_audio_features`: fold `processChunk`
over the chunks, starting from empty accumulators. -/
def collectLoop (call : Nat → List String → CallOutcome) (outputFile : String)
    (track_uris : List String) (B : Nat) : OState :=
  (chunkList B track_uris).foldl (processChunk call outputFile) ⟨[], [], [], [], 0, 0⟩

/-- The summary statistics logged at lines 215-220. -/
structure RunStats where
  requested : Nat
  collected : Nat
  failedCount : Nat
  successRate : ℚ
deriving DecidableEq

/-- Result of a full `collect_all_audio_features` run.  `outcome` is
`.ok stats` when the run ends normally (returning `features`), and
`.error ()` when the success-rate computation at line 219 raises
`ZeroDivisionError`. -/
structure RunResult where
  features : List (String × Option AudioFeatures)
  failed : List String
  writes : List WriteEvent
  calls : List (List String)
  outcome : Except Unit RunStats

/-- Embedding of `collect_all_audio_features` (`spotify_client.py` lines
149-228): run the batch loop, write the final map unconditionally
(line 210), compute the summary statistics (lines 213-220, where the
success rate divides by `len(track_uris)`), and write the failed list to
`output_file + ".failed"` when it is non-empty (lines 222-226). -/
def collect_all_audio_features (call : Nat → List String → CallOutcome)
    (track_uris : List String) (outputFile : String) (B : Nat) : RunResult :=
  let st := collectLoop call outputFile track_uris B
  let writes1 := st.writes ++ [.featuresFile outputFile st.features]
  if track_uris.length = 0 then
    ⟨st.features, st.failed, writes1, st.calls, .error ()⟩
  else
    let sc := countSomeA st.features
    let stats : RunStats :=
      ⟨track_uris.length, sc, st.failed.length,
       (sc : ℚ) / (track_uris.length : ℚ) * 100⟩
    if st.failed.isEmpty then
      ⟨st.features, st.failed, writes1, st.calls, .ok stats⟩
    else
      ⟨st.features, st.failed,
       writes1 ++ [.failedFile (outputFile ++ ".failed") st.failed],
       st.calls, .ok stats⟩

/-!
## Identifier extractor (`src/dataETL/extractors.py`)
-/

/-- One track entry of a playlist in an MPD slice file. -/
structure MpdTrack where
  track_uri : String
  track_name : String
  artist_name : String
  artist_uri : String
  album_name : String
  album_uri : String
  duration_ms : Nat
deriving DecidableEq

/-- The record stored in `unique_tracks` (`extractors.py` lines 57-65). -/
structure TrackRecord where
  track_uri : String
  track_name : String
  artist_name : String
  artist_uri : String
  album_name : String
  album_uri : String
  duration_ms : Nat
deriving DecidableEq

/-- The dict literal built at `extractors.py` lines 57-65. -/
def mkTrackRecord (t : MpdTrack) : TrackRecord :=
  ⟨t.track_uri, t.track_name, t.artist_name, t.artist_uri,
   t.album_name, t.album_uri, t.duration_ms⟩

/-- A slice file as seen by the extractor: either it parses into a list of
playlists (each a list of track entries), or `json.load` raises and the
file is skipped by the `except` at line 67. -/
inductive SliceFile where
  | parsed (playlists : List (List MpdTrack))
  | malformed
deriving DecidableEq

/-- Accumulators of `extract_unique_tracks_from_mpd`: `unique_tracks`,
`track_frequency`, `total_tracks_processed`. -/
structure ExtractState where
  unique_tracks : List (String × TrackRecord)
  track_frequency : List (String × Nat)
  total : Nat
deriving DecidableEq

/-- The per-track body (`extractors.py` lines 52-65): bump the frequency
counter and the total, and record the metadata only for a first
occurrence. -/
def processTrack (st : ExtractState) (t : MpdTrack) : ExtractState :=
  let freq := insertA t.track_uri
    ((findA st.track_frequency t.track_uri).getD 0 + 1) st.track_frequency
  if findA st.unique_tracks t.track_uri = none then
    ⟨insertA t.track_uri (mkTrackRecord t) st.unique_tracks, freq, st.total + 1⟩
  else
    ⟨st.unique_tracks, freq, st.total + 1⟩

/-- The per-file body (lines 45-69): a malformed file is logged and
skipped (`continue`), a parsed file contributes every track of every
playlist in order. -/
def processSlice (st : ExtractState) (f : SliceFile) : ExtractState :=
  match f with
  | .malformed => st
  | .parsed pls => pls.flatten.foldl processTrack st

/-- The `max_files` truncation (lines 35-36): `if max_files:` is Python
truthiness, so `Some 0` leaves the list untouched. -/
def takeIfSome (mf : Option Nat) (files : List SliceFile) : List SliceFile :=
  match mf with
  | some m => if m = 0 then files else files.take m
  | none => files

/-- The file loop of `extract_unique_tracks_from_mpd` (files are supplied
already in sorted filename order, as produced by `sorted(...glob...)`). -/
def extractCore (files : List SliceFile) (mf : Option Nat) : ExtractState :=
  (takeIfSome mf files).foldl processSlice ⟨[], [], 0⟩

/-- Embedding of `extract_unique_tracks_from_mpd` (`extractors.py` lines
16-77).  The average-frequency log line at line 74 divides
`total_tracks_processed` by `len(unique_tracks)`, so the function raises
`ZeroDivisionError` (here `.error ()`) when no track was extracted. -/
def extract_unique_tracks_from_mpd (files : List SliceFile) (mf : Option Nat) :
    Except Unit ExtractState :=
  let st := extractCore files mf
  if st.unique_tracks.length = 0 then .error () else .ok st

/-- All track entries of the parsed files, in processing order. -/
def parsedTracks (files : List SliceFile) : List MpdTrack :=
  (files.map (fun f => match f with
    | .parsed pls => pls.flatten
    | .malformed => [])).flatten

/-- Whether a slice file parses successfully. -/
def isParsedSlice : SliceFile → Bool
  | .parsed _ => true
  | .malformed => false

/-!
## Pipeline driver (`scripts/enrich_dataset.py`)
-/

/-- Python truthiness of `os.getenv` results: `None` and the empty string
are falsy. -/
def truthy : Option String → Bool
  | none => false
  | some s => !(s.isEmpty)

/-- Observable outcome of one `main()` run (after a successful
extraction): whether the enrichment stage was entered, whether its failure
was caught and logged, and the collected map if the run completed. -/
structure DriverResult where
  enrichmentAttempted : Bool
  enrichmentErrorLogged : Bool
  cleanExit : Bool
  features : Option (List (String × Option AudioFeatures))
deriving DecidableEq

/-- Embedding of `main` (`scripts/enrich_dataset.py` lines 14-74):
extraction and persistence run first (an extraction failure propagates,
there is no handler around it); the enrichment stage runs only when both
credentials are truthy, and any exception from collector construction
(`constructionOk = false`) or from the collection run is caught at lines
66-67 and logged, after which `main` still exits normally. -/
def main (clientId clientSecret : Option String) (files : List SliceFile)
    (constructionOk : Bool) (call : Nat → List String → CallOutcome) :
    Except Unit DriverResult :=
  match extract_unique_tracks_from_mpd files (some 5) with
  | .error e => .error e
  | .ok st =>
    if truthy clientId && truthy clientSecret then
      if constructionOk then
        let uris := keysA st.unique_tracks
        let r := collect_all_audio_features call uris "data/interim/audio_features.json" 100
        match r.outcome with
        | .ok _ => .ok ⟨true, false, true, some r.features⟩
        | .error _ => .ok ⟨true, true, true, none⟩
      else
        .ok ⟨true, true, true, none⟩
    else
      .ok ⟨false, false, true, none⟩

/-!
## Auxiliary predicates and concrete sample inputs
-/

/-- Well-formedness of one batch-call outcome, as guaranteed by
`get_audio_features_batch`: a returned map is a Python dict keyed by URIs
of the submitted batch, so its keys are unique and drawn from the batch. -/
def chunkGoodP : CallOutcome → List String → Prop
  | .ret bf, b => (∀ k ∈ keysA bf, k ∈ b) ∧ (keysA bf).Nodup
  | .raise, _ => True

/-- Well-formedness of a batch-call oracle on duplicate-free batches. -/
def CallGood (call : Nat → List String → CallOutcome) : Prop :=
  ∀ n b, b.Nodup → chunkGoodP (call n b) b

/-- The three terminal states of a submitted identifier: populated feature
record (and not on the failure list), explicit unavailable marker plus a
failure-list entry, or failure-list entry only. -/
def TriState (features : List (String × Option AudioFeatures))
    (failed : List String) (u : String) : Prop :=
  ((∃ f, findA features u = some (some f)) ∧ u ∉ failed)
  ∨ (findA features u = some none ∧ u ∈ failed)
  ∨ (findA features u = none ∧ u ∈ failed)

/-- A concrete feature record used by the witnesses. -/
def demoFeat : AudioFeatures :=
  ⟨0, 0, 0, 0, 0, 0, 0, 0, 0, 0, 0, 0⟩

/-- A concrete service feature object used by the witnesses. -/
def demoApiFeat : ApiFeatures :=
  ⟨0, 0, 0, 0, 0, 0, 0, 0, 0, 0, 0, 0, "id0"⟩

/-- A concrete batch-call oracle: every submitted URI gets an entry, with a
populated record for `"a"` and the null marker otherwise. -/
def demoCall1 : Nat → List String → CallOutcome :=
  fun _ b => .ret (b.map (fun u => (u, if u = "a" then some demoFeat else none)))

/-- A concrete batch-call oracle whose calls all return the empty map. -/
def demoCall2 : Nat → List String → CallOutcome :=
  fun _ _ => .ret []

/-- A concrete track entry used by the witnesses. -/
def demoTrack : MpdTrack :=
  ⟨"a", "name", "artist", "artist:1", "album", "album:1", 1000⟩

/-- A second concrete track entry with the same identifier but different
metadata, used to exercise first-occurrence-wins. -/
def demoTrack2 : MpdTrack :=
  ⟨"a", "other", "artist2", "artist:2", "album2", "album:2", 2000⟩

/-!
## Association-list lemmas
-/

theorem mem_keysA_cons {α : Type} (a : String) (w : α) (t : List (String × α)) (u : String) :
    u ∈ keysA ((a, w) :: t) ↔ u = a ∨ u ∈ keysA t := by
  simp only [keysA, List.map_cons, List.mem_cons]

theorem findA_insertA {α : Type} (k : String) (v : α) (m : List (String × α)) (u : String) :
    findA (insertA k v m) u = if k = u then some v else findA m u := by
  induction m with
  | nil => simp [insertA, findA]
  | cons p t ih =>
    obtain ⟨a, w⟩ := p
    by_cases hak : a = k
    · subst hak
      by_cases hau : a = u <;> simp [insertA, findA, hau]
    · by_cases hau : a = u
      · subst hau
        have hka : ¬ k = a := fun h => hak h.symm
        simp [insertA, findA, hak, hka]
      · simp [insertA, findA, hak, hau, ih]

theorem findA_eq_none_iff {α : Type} (m : List (String × α)) (u : String) :
    findA m u = none ↔ u ∉ keysA m := by
  induction m with
  | nil => simp [findA, keysA]
  | cons p t ih =>
    obtain ⟨a, w⟩ := p
    rw [mem_keysA_cons]
    by_cases hau : a = u
    · subst hau
      simp [findA]
    · have hua : ¬ u = a := fun h => hau h.symm
      simp [findA, hau, ih, hua]

theorem mem_keysA_iff_findA {α : Type} (m : List (String × α)) (u : String) :
    u ∈ keysA m ↔ ¬ findA m u = none := by
  constructor
  · intro h h'
    exact (findA_eq_none_iff m u).mp h' h
  · intro h
    by_contra h'
    exact h ((findA_eq_none_iff m u).mpr h')

theorem insertA_of_not_mem {α : Type} (k : String) (v : α) (m : List (String × α))
    (h : k ∉ keysA m) : insertA k v m = m ++ [(k, v)] := by
  induction m with
  | nil => rfl
  | cons p t ih =>
    obtain ⟨a, w⟩ := p
    rw [mem_keysA_cons] at h
    push_neg at h
    have hak : ¬ a = k := fun hh => h.1 hh.symm
    simp [insertA, hak, ih h.2]

theorem keysA_append {α : Type} (m n : List (String × α)) :
    keysA (m ++ n) = keysA m ++ keysA n := by
  simp [keysA]

theorem mem_keysA_insertA {α : Type} (k : String) (v : α) (m : List (String × α)) (u : String) :
    u ∈ keysA (insertA k v m) ↔ u = k ∨ u ∈ keysA m := by
  induction m with
  | nil => simp [insertA, keysA]
  | cons p t ih =>
    obtain ⟨a, w⟩ := p
    by_cases hak : a = k
    · subst hak
      rw [show insertA a v ((a, w) :: t) = (a, v) :: t from by simp [insertA]]
      rw [mem_keysA_cons, mem_keysA_cons]
      tauto
    · rw [show insertA k v ((a, w) :: t) = (a, w) :: insertA k v t from by simp [insertA, hak]]
      rw [mem_keysA_cons, mem_keysA_cons, ih]
      tauto

theorem nodup_keysA_insertA {α : Type} (k : String) (v : α) (m : List (String × α))
    (h : (keysA m).Nodup) : (keysA (insertA k v m)).Nodup := by
  induction m with
  | nil => simp [insertA, keysA]
  | cons p t ih =>
    obtain ⟨a, w⟩ := p
    rw [keysA, List.map_cons, List.nodup_cons] at h
    by_cases hak : a = k
    · subst hak
      rw [show insertA a v ((a, w) :: t) = (a, v) :: t from by simp [insertA]]
      rw [keysA, List.map_cons, List.nodup_cons]
      exact ⟨h.1, h.2⟩
    · rw [show insertA k v ((a, w) :: t) = (a, w) :: insertA k v t from by simp [insertA, hak]]
      rw [keysA, List.map_cons, List.nodup_cons]
      refine ⟨?_, ih h.2⟩
      intro hmem
      rcases (mem_keysA_insertA k v t a).mp hmem with h' | h'
      · exact hak h'
      · exact h.1 h'

theorem updateA_cons {α : Type} (m : List (String × α)) (k : String) (v : α)
    (t : List (String × α)) :
    updateA m ((k, v) :: t) = updateA (insertA k v m) t := by
  simp [updateA]

theorem findA_updateA_of_not_mem {α : Type} (new : List (String × α)) :
    ∀ (m : List (String × α)) (u : String), u ∉ keysA new →
      findA (updateA m new) u = findA m u := by
  induction new with
  | nil => intro m u _; rfl
  | cons p t ih =>
    intro m u h
    obtain ⟨k, v⟩ := p
    rw [mem_keysA_cons] at h
    push_neg at h
    rw [updateA_cons, ih _ _ h.2, findA_insertA, if_neg (fun hh => h.1 hh.symm)]

theorem findA_updateA_of_mem {α : Type} (new : List (String × α)) :
    ∀ (m : List (String × α)) (u : String), (keysA new).Nodup → u ∈ keysA new →
      findA (updateA m new) u = findA new u := by
  induction new with
  | nil => intro m u _ h; simp [keysA] at h
  | cons p t ih =>
    intro m u hnd h
    obtain ⟨k, v⟩ := p
    rw [keysA, List.map_cons, List.nodup_cons] at hnd
    rw [updateA_cons]
    by_cases hku : k = u
    · subst hku
      rw [findA_updateA_of_not_mem t _ k hnd.1]
      rw [findA_insertA, if_pos rfl]
      simp [findA]
    · rw [mem_keysA_cons] at h
      have hu : u ∈ keysA t := by
        rcases h with h' | h'
        · exact absurd h'.symm hku
        · exact h'
      rw [ih _ _ hnd.2 hu]
      simp [findA, hku]

theorem sumValsA_bump (m : List (String × Nat)) (k : String) :
    sumValsA (insertA k ((findA m k).getD 0 + 1) m) = sumValsA m + 1 := by
  induction m with
  | nil => simp [insertA, findA, sumValsA]
  | cons p t ih =>
    obtain ⟨a, w⟩ := p
    by_cases hak : a = k
    · subst hak
      simp [insertA, findA, sumValsA]
      omega
    · have hka : ¬ k = a := fun h => hak h.symm
      simp [insertA, findA, hak, hka, sumValsA] at ih ⊢
      omega

/-!
## Chunking lemmas
-/

theorem chunkGo_flatten {α : Type} (B : Nat) (hB : 0 < B) :
    ∀ (fuel : Nat) (l : List α), l.length ≤ fuel → (chunkGo B fuel l).flatten = l := by
  intro fuel
  induction fuel with
  | zero =>
    intro l h
    have : l = [] := List.length_eq_zero.mp (Nat.le_zero.mp h)
    subst this
    simp [chunkGo]
  | succ n ih =>
    intro l h
    match l with
    | [] => simp [chunkGo]
    | a :: t =>
      have hd : ((a :: t).drop B).length ≤ n := by
        simp only [List.length_drop, List.length_cons]
        simp only [List.length_cons] at h
        omega
      simp only [chunkGo, List.flatten_cons, ih _ hd]
      exact List.take_append_drop B (a :: t)

theorem chunkGo_length {α : Type} (B : Nat) (hB : 0 < B) :
    ∀ (fuel : Nat) (l : List α), l.length ≤ fuel →
      (chunkGo B fuel l).length = (l.length + B - 1) / B := by
  intro fuel
  induction fuel with
  | zero =>
    intro l h
    have : l = [] := List.length_eq_zero.mp (Nat.le_zero.mp h)
    subst this
    simp [chunkGo, Nat.div_eq_of_lt (show B - 1 < B by omega)]
  | succ n ih =>
    intro l h
    match l with
    | [] => simp [chunkGo, Nat.div_eq_of_lt (show B - 1 < B by omega)]
    | a :: t =>
      have hlt : ((a :: t).drop B).length = t.length + 1 - B := by
        rw [List.length_drop, List.length_cons]
      have hd : ((a :: t).drop B).length ≤ n := by
        rw [hlt]
        simp only [List.length_cons] at h
        omega
      simp only [chunkGo, List.length_cons]
      rw [ih _ hd, hlt]
      rcases le_or_lt (t.length + 1) B with hc | hc
      · have h1 : t.length + 1 - B + B - 1 = B - 1 := by omega
        have h2 : t.length + 1 + B - 1 = t.length + B := by omega
        rw [h1, h2, Nat.add_div_right _ hB]
        rw [Nat.div_eq_of_lt (show B - 1 < B by omega),
            Nat.div_eq_of_lt (show t.length < B by omega)]
      · have h1 : t.length + 1 - B + B - 1 = t.length - B + B := by omega
        have h2 : t.length + 1 + B - 1 = t.length + B := by omega
        have h3 : t.length - B + B = t.length := by omega
        rw [h1, h2, h3, Nat.add_div_right _ hB]

theorem chunkGo_mem_length_le {α : Type} (B : Nat) :
    ∀ (fuel : Nat) (l c : List α), c ∈ chunkGo B fuel l → c.length ≤ B := by
  intro fuel
  induction fuel with
  | zero =>
    intro l c h
    simp [chunkGo] at h
  | succ n ih =>
    intro l c h
    match l with
    | [] => simp [chunkGo] at h
    | a :: t =>
      simp only [chunkGo, List.mem_cons] at h
      rcases h with h | h
      · subst h
        simp [List.length_take]
      · exact ih _ _ h

theorem chunkList_flatten {α : Type} (B : Nat) (hB : 0 < B) (l : List α) :
    (chunkList B l).flatten = l := by
  rw [chunkList, if_neg (show ¬ B = 0 by omega)]
  exact chunkGo_flatten B hB l.length l (le_refl _)

theorem chunkList_length {α : Type} (B : Nat) (hB : 0 < B) (l : List α) :
    (chunkList B l).length = (l.length + B - 1) / B := by
  rw [chunkList, if_neg (show ¬ B = 0 by omega)]
  exact chunkGo_length B hB l.length l (le_refl _)

theorem chunkList_mem_length_le {α : Type} (B : Nat) (l c : List α)
    (h : c ∈ chunkList B l) : c.length ≤ B := by
  rw [chunkList] at h
  by_cases hb : B = 0
  · simp [hb] at h
  · rw [if_neg hb] at h
    exact chunkGo_mem_length_le B l.length l c h

/-!
## Orchestrator step lemmas
-/

theorem applyCheckpoint_features (o : String) (bb : Bool) (st : OState) :
    (applyCheckpoint o bb st).features = st.features := by
  unfold applyCheckpoint
  split <;> rfl

theorem applyCheckpoint_failed (o : String) (bb : Bool) (st : OState) :
    (applyCheckpoint o bb st).failed = st.failed := by
  unfold applyCheckpoint
  split <;> rfl

theorem applyCheckpoint_calls (o : String) (bb : Bool) (st : OState) :
    (applyCheckpoint o bb st).calls = st.calls := by
  unfold applyCheckpoint
  split <;> rfl

theorem applyCheckpoint_writes_shape (o : String) (bb : Bool) (st : OState) :
    ∀ w ∈ (applyCheckpoint o bb st).writes,
      w ∈ st.writes ∨ ∃ m, w = .featuresFile (o ++ ".tmp") m := by
  intro w hw
  unfold applyCheckpoint at hw
  by_cases hb : bb
  · simp [hb] at hw
    rcases hw with hw | hw
    · exact Or.inl hw
    · exact Or.inr ⟨_, hw⟩
  · simp [hb] at hw
    exact Or.inl hw

theorem processChunk_calls (call : Nat → List String → CallOutcome) (o : String)
    (st : OState) (b : List String) :
    (processChunk call o st b).calls = st.calls ++ [b] := by
  cases hc : call st.batchNum b with
  | ret bf =>
    by_cases hbf : bf.isEmpty <;>
      simp [processChunk, hc, hbf, applyCheckpoint_calls]
  | raise => simp [processChunk, hc]

theorem processChunk_writes_shape (call : Nat → List String → CallOutcome) (o : String)
    (st : OState) (b : List String) :
    ∀ w ∈ (processChunk call o st b).writes,
      w ∈ st.writes ∨ ∃ m, w = .featuresFile (o ++ ".tmp") m := by
  intro w hw
  cases hc : call st.batchNum b with
  | ret bf =>
    by_cases hbf : bf.isEmpty
    · simp only [processChunk, hc] at hw
      rw [if_pos hbf] at hw
      have h2 := applyCheckpoint_writes_shape o ((st.batchNum + 1) % 10 == 0) _ w hw
      simpa using h2
    · simp only [processChunk, hc] at hw
      rw [if_neg hbf] at hw
      have h2 := applyCheckpoint_writes_shape o ((st.batchNum + 1) % 10 == 0) _ w hw
      simpa using h2
  | raise =>
    simp only [processChunk, hc] at hw
    exact Or.inl hw

theorem processChunk_untouched (call : Nat → List String → CallOutcome) (o : String)
    (st : OState) (b : List String) (u : String)
    (hgood : chunkGoodP (call st.batchNum b) b) (hu : u ∉ b) :
    findA (processChunk call o st b).features u = findA st.features u
    ∧ ((u ∈ (processChunk call o st b).failed) ↔ u ∈ st.failed) := by
  cases hc : call st.batchNum b with
  | raise =>
    constructor
    · simp [processChunk, hc]
    · simp [processChunk, hc, List.mem_append, hu]
  | ret bf =>
    rw [hc] at hgood
    simp only [chunkGoodP] at hgood
    by_cases hbf : bf.isEmpty
    · constructor
      · simp [processChunk, hc, hbf, applyCheckpoint_features]
      · simp [processChunk, hc, hbf, applyCheckpoint_failed, List.mem_append, hu]
    · have hnk : u ∉ keysA bf := fun hmem => hu (hgood.1 u hmem)
      have hupd := findA_updateA_of_not_mem bf st.features u hnk
      constructor
      · simp [processChunk, hc, hbf, applyCheckpoint_features, hupd]
      · simp [processChunk, hc, hbf, applyCheckpoint_failed, List.mem_append,
              List.mem_filter, hu]

theorem processChunk_tristate (call : Nat → List String → CallOutcome) (o : String)
    (st : OState) (b : List String) (u : String)
    (hgood : chunkGoodP (call st.batchNum b) b) (hu : u ∈ b)
    (hf : findA st.features u = none) (hl : u ∉ st.failed) :
    TriState (processChunk call o st b).features (processChunk call o st b).failed u := by
  unfold TriState
  cases hc : call st.batchNum b with
  | raise =>
    right; right
    constructor
    · simp [processChunk, hc, hf]
    · simp [processChunk, hc, List.mem_append, hu]
  | ret bf =>
    rw [hc] at hgood
    simp only [chunkGoodP] at hgood
    by_cases hbf : bf.isEmpty
    · right; right
      constructor
      · simp [processChunk, hc, hbf, applyCheckpoint_features, hf]
      · simp [processChunk, hc, hbf, applyCheckpoint_failed, List.mem_append, hu]
    · have hfeatbase : findA (processChunk call o st b).features u
          = findA (updateA st.features bf) u := by
        simp [processChunk, hc, hbf, applyCheckpoint_features]
      have hfailbase : (processChunk call o st b).failed
          = st.failed ++ b.filter (fun x => !(isHit bf x)) := by
        simp [processChunk, hc, hbf, applyCheckpoint_failed]
      cases hfb : findA bf u with
      | none =>
        right; right
        have hnk : u ∉ keysA bf := (findA_eq_none_iff bf u).mp hfb
        constructor
        · rw [hfeatbase, findA_updateA_of_not_mem bf st.features u hnk, hf]
        · rw [hfailbase, List.mem_append]
          right
          rw [List.mem_filter]
          exact ⟨hu, by simp [isHit, hfb]⟩
      | some v =>
        have hmem : u ∈ keysA bf := by
          rw [mem_keysA_iff_findA, hfb]
          exact fun h => Option.noConfusion h
        have hval : findA (updateA st.features bf) u = some v := by
          rw [findA_updateA_of_mem bf st.features u hgood.2 hmem, hfb]
        cases v with
        | none =>
          right; left
          constructor
          · rw [hfeatbase, hval]
          · rw [hfailbase, List.mem_append]
            right
            rw [List.mem_filter]
            exact ⟨hu, by simp [isHit, hfb]⟩
        | some f =>
          left
          constructor
          · exact ⟨f, by rw [hfeatbase, hval]⟩
          · rw [hfailbase, List.mem_append]
            rintro (h | h)
            · exact hl h
            · rw [List.mem_filter] at h
              have hpred := h.2
              simp [isHit, hfb] at hpred

/-!
## Orchestrator loop lemmas
-/

theorem TriState_congr (F F' : List (String × Option AudioFeatures))
    (L L' : List String) (u : String)
    (hF : findA F' u = findA F u) (hL : (u ∈ L') ↔ u ∈ L)
    (h : TriState F L u) : TriState F' L' u := by
  unfold TriState at h ⊢
  rw [hF, hL]
  exact h

theorem flatten_nodup_mem {α : Type} (L : List (List α)) (hn : L.flatten.Nodup) :
    ∀ b ∈ L, b.Nodup := by
  induction L with
  | nil => intro b h; simp at h
  | cons c t ih =>
    intro b h
    rw [List.flatten_cons, List.nodup_append] at hn
    rcases List.mem_cons.mp h with h1 | h1
    · subst h1
      exact hn.1
    · exact ih hn.2.1 b h1

theorem foldl_processChunk_calls (call : Nat → List String → CallOutcome) (o : String)
    (chs : List (List String)) :
    ∀ st : OState, (chs.foldl (processChunk call o) st).calls = st.calls ++ chs := by
  induction chs with
  | nil => intro st; simp
  | cons c t ih =>
    intro st
    rw [List.foldl_cons, ih, processChunk_calls]
    simp

theorem foldl_processChunk_writes_shape (call : Nat → List String → CallOutcome)
    (o : String) (chs : List (List String)) :
    ∀ st : OState, ∀ w ∈ (chs.foldl (processChunk call o) st).writes,
      w ∈ st.writes ∨ ∃ m, w = .featuresFile (o ++ ".tmp") m := by
  induction chs with
  | nil => intro st w hw; exact Or.inl hw
  | cons c t ih =>
    intro st w hw
    rw [List.foldl_cons] at hw
    rcases ih (processChunk call o st c) w hw with h | h
    · exact processChunk_writes_shape call o st c w h
    · exact Or.inr h

theorem foldl_untouched (call : Nat → List String → CallOutcome) (o : String)
    (hc : CallGood call) (chs : List (List String)) (hnd : ∀ b ∈ chs, b.Nodup) :
    ∀ (st : OState) (u : String), u ∉ chs.flatten →
      findA (chs.foldl (processChunk call o) st).features u = findA st.features u
      ∧ ((u ∈ (chs.foldl (processChunk call o) st).failed) ↔ u ∈ st.failed) := by
  induction chs with
  | nil => intro st u _; exact ⟨rfl, Iff.rfl⟩
  | cons c t ih =>
    intro st u hu
    rw [List.flatten_cons, List.mem_append] at hu
    push_neg at hu
    have h1 := processChunk_untouched call o st c u
      (hc st.batchNum c (hnd c (by simp))) hu.1
    have h2 := ih (fun b hb => hnd b (List.mem_cons_of_mem _ hb))
      (processChunk call o st c) u hu.2
    rw [List.foldl_cons]
    exact ⟨h2.1.trans h1.1, h2.2.trans h1.2⟩

theorem foldl_tristate (call : Nat → List String → CallOutcome) (o : String)
    (hc : CallGood call) (chs : List (List String)) :
    ∀ st : OState, chs.flatten.Nodup →
      (∀ u ∈ chs.flatten, findA st.features u = none ∧ u ∉ st.failed) →
      ∀ u ∈ chs.flatten,
        TriState (chs.foldl (processChunk call o) st).features
                 (chs.foldl (processChunk call o) st).failed u := by
  induction chs with
  | nil => intro st _ _ u hu; simp at hu
  | cons c t ih =>
    intro st hnd hclean u hu
    rw [List.flatten_cons, List.nodup_append] at hnd
    obtain ⟨hndc, hndt, hdisj⟩ := hnd
    rw [List.flatten_cons, List.mem_append] at hu
    rw [List.foldl_cons]
    have hndall : ∀ b ∈ t, b.Nodup := flatten_nodup_mem t hndt
    rcases hu with hu | hu
    · have hcl := hclean u (by rw [List.flatten_cons, List.mem_append]; exact Or.inl hu)
      have h1 := processChunk_tristate call o st c u
        (hc st.batchNum c hndc) hu hcl.1 hcl.2
      have hnotin : u ∉ t.flatten := fun h => hdisj hu h
      have h2 := foldl_untouched call o hc t hndall (processChunk call o st c) u hnotin
      exact TriState_congr (processChunk call o st c).features _
        (processChunk call o st c).failed _ u h2.1 h2.2 h1
    · have hun : u ∉ c := fun h => hdisj h hu
      apply ih (processChunk call o st c) hndt ?_ u hu
      intro v hv
      have hvc : v ∉ c := fun h => hdisj h hv
      have hv1 := processChunk_untouched call o st c v (hc st.batchNum c hndc) hvc
      have hcl2 := hclean v (by rw [List.flatten_cons, List.mem_append]; exact Or.inr hv)
      exact ⟨hv1.1.trans hcl2.1, fun h => hcl2.2 (hv1.2.mp h)⟩

theorem collect_all_components (call : Nat → List String → CallOutcome)
    (uris : List String) (o : String) (B : Nat) :
    (collect_all_audio_features call uris o B).features = (collectLoop call o uris B).features
    ∧ (collect_all_audio_features call uris o B).failed = (collectLoop call o uris B).failed
    ∧ (collect_all_audio_features call uris o B).calls = (collectLoop call o uris B).calls := by
  simp only [collect_all_audio_features]
  split_ifs <;> exact ⟨rfl, rfl, rfl⟩

theorem collectLoop_writes_shape (call : Nat → List String → CallOutcome)
    (o : String) (uris : List String) (B : Nat) :
    ∀ w ∈ (collectLoop call o uris B).writes,
      ∃ m, w = WriteEvent.featuresFile (o ++ ".tmp") m := by
  intro w hw
  simp only [collectLoop] at hw
  rcases foldl_processChunk_writes_shape call o (chunkList B uris)
      ⟨[], [], [], [], 0, 0⟩ w hw with h | h
  · simp at h
  · exact h

theorem keysA_map_pair (b : List String) (g : String → Option AudioFeatures) :
    keysA (b.map (fun u => (u, g u))) = b := by
  simp only [keysA, List.map_map]
  have hcomp : (Prod.fst ∘ fun u => (u, g u)) = fun u : String => u := rfl
  rw [hcomp, List.map_id']

theorem demoCall1_good : CallGood demoCall1 := by
  intro n b hnd
  simp only [demoCall1, chunkGoodP]
  rw [keysA_map_pair b (fun u => if u = "a" then some demoFeat else none)]
  exact ⟨fun k hk => hk, hnd⟩

/-- C1: every identifier submitted to `collect_all_audio_features` ends the
run in exactly one of three states: populated record in the feature map and
not on the failure list, null marker in the feature map and on the failure
list, or on the failure list only — never absent from all of them, and never
with a populated record together with a failure-list entry.  The hypotheses
state that the batch size is positive, the submitted list is duplicate-free,
and each batch call returns a dict keyed by URIs of its batch. -/
theorem collect_all_tristate (call : Nat → List String → CallOutcome)
    (uris : List String) (o : String) (B : Nat)
    (hB : 0 < B) (hnd : uris.Nodup) (hcall : CallGood call) :
    ∀ u ∈ uris,
      TriState (collect_all_audio_features call uris o B).features
               (collect_all_audio_features call uris o B).failed u
      ∧ (∀ f, findA (collect_all_audio_features call uris o B).features u
            = some (some f) → u ∉ (collect_all_audio_features call uris o B).failed) := by
  intro u hu
  obtain ⟨hfe, hfa, _⟩ := collect_all_components call uris o B
  rw [hfe, hfa]
  simp only [collectLoop]
  have hflat : (chunkList B uris).flatten = uris := chunkList_flatten B hB uris
  have hndf : (chunkList B uris).flatten.Nodup := by rw [hflat]; exact hnd
  have hmem : u ∈ (chunkList B uris).flatten := by rw [hflat]; exact hu
  have htri := foldl_tristate call o hcall (chunkList B uris)
    ⟨[], [], [], [], 0, 0⟩ hndf (fun v _ => ⟨rfl, by simp⟩) u hmem
  refine ⟨htri, ?_⟩
  intro f hf hmemf
  unfold TriState at htri
  rcases htri with ⟨⟨f0, h1⟩, h2⟩ | ⟨h1, h2⟩ | ⟨h1, h2⟩
  · exact h2 hmemf
  · rw [hf] at h1
    simp at h1
  · rw [hf] at h1
    simp at h1

/-- Witness for C1 at a concrete run: three identifiers, batch size 2, an
oracle answering every URI. -/
theorem collect_all_tristate_witness :
    0 < 2 ∧ (["a", "b", "c"] : List String).Nodup ∧ CallGood demoCall1
    ∧ TriState (collect_all_audio_features demoCall1 ["a", "b", "c"] "out.json" 2).features
               (collect_all_audio_features demoCall1 ["a", "b", "c"] "out.json" 2).failed
               "a" :=
  ⟨by decide, by decide, demoCall1_good,
    (collect_all_tristate demoCall1 ["a", "b", "c"] "out.json" 2 (by decide) (by decide)
      demoCall1_good "a" (by decide)).1⟩

/-- C2: with batch size `B > 0` over `N` identifiers, the orchestrator
issues exactly `⌈N / B⌉` batch calls, each of at most `B` identifiers, and
the batches are the contiguous slices whose concatenation is exactly the
input list (no omission, no duplication). -/
theorem collect_all_chunking (call : Nat → List String → CallOutcome)
    (uris : List String) (o : String) (B : Nat) (hB : 0 < B) :
    (collect_all_audio_features call uris o B).calls = chunkList B uris
    ∧ (collect_all_audio_features call uris o B).calls.length = (uris.length + B - 1) / B
    ∧ (∀ c ∈ (collect_all_audio_features call uris o B).calls, c.length ≤ B)
    ∧ (collect_all_audio_features call uris o B).calls.flatten = uris := by
  obtain ⟨_, _, hca⟩ := collect_all_components call uris o B
  have hcalls : (collect_all_audio_features call uris o B).calls = chunkList B uris := by
    rw [hca]
    simp only [collectLoop]
    rw [foldl_processChunk_calls]
    simp
  refine ⟨hcalls, ?_, ?_, ?_⟩
  · rw [hcalls, chunkList_length B hB]
  · intro c hc
    rw [hcalls] at hc
    exact chunkList_mem_length_le B uris c hc
  · rw [hcalls, chunkList_flatten B hB]

/-- Witness for C2 at a concrete run: 3 identifiers, batch size 2. -/
theorem collect_all_chunking_witness :
    0 < 2
    ∧ (collect_all_audio_features demoCall2 ["a", "b", "c"] "out.json" 2).calls.length
        = (3 + 2 - 1) / 2
    ∧ (collect_all_audio_features demoCall2 ["a", "b", "c"] "out.json" 2).calls.flatten
        = ["a", "b", "c"] :=
  ⟨by decide,
   (collect_all_chunking demoCall2 ["a", "b", "c"] "out.json" 2 (by decide)).2.1,
   (collect_all_chunking demoCall2 ["a", "b", "c"] "out.json" 2 (by decide)).2.2.2⟩

/-- C4: in the batch-success path (the call returned a non-empty map `bf`),
the map is merged into the accumulated features, the terminal-failure list
is extended with exactly the chunk identifiers that are absent from `bf` or
mapped to the null marker — so an identifier the service reported as
unavailable is both recorded in the feature map (as the null marker) and
counted as a failure. -/
theorem processChunk_success_path (call : Nat → List String → CallOutcome) (o : String)
    (st : OState) (b : List String) (bf : List (String × Option AudioFeatures))
    (hret : call st.batchNum b = .ret bf) (hne : ¬ bf = [])
    (hnk : (keysA bf).Nodup) :
    (processChunk call o st b).features = updateA st.features bf
    ∧ (processChunk call o st b).failed = st.failed ++ b.filter (fun u => !(isHit bf u))
    ∧ (∀ u ∈ b, (findA bf u = none ∨ findA bf u = some none) →
        u ∈ (processChunk call o st b).failed)
    ∧ (∀ u, findA bf u = some none →
        findA (processChunk call o st b).features u = some none) := by
  have hbf : ¬ bf.isEmpty := by
    cases bf
    · exact absurd rfl hne
    · simp
  have h1 : (processChunk call o st b).features = updateA st.features bf := by
    simp [processChunk, hret, hbf, applyCheckpoint_features]
  have h2 : (processChunk call o st b).failed
      = st.failed ++ b.filter (fun u => !(isHit bf u)) := by
    simp [processChunk, hret, hbf, applyCheckpoint_failed]
  refine ⟨h1, h2, ?_, ?_⟩
  · intro u hu hcond
    rw [h2, List.mem_append]
    right
    rw [List.mem_filter]
    refine ⟨hu, ?_⟩
    rcases hcond with h | h <;> simp [isHit, h]
  · intro u hval
    rw [h1]
    rw [findA_updateA_of_mem bf st.features u hnk (by
      rw [mem_keysA_iff_findA, hval]
      exact fun h => Option.noConfusion h)]
    exact hval

/-- Witness for C4 at a concrete chunk: the oracle answers with a record
for `"a"` and the null marker for `"b"`; `"b"` lands in both the feature
map (as null) and the failure list. -/
theorem processChunk_success_path_witness :
    demoCall1 0 ["a", "b"] = .ret [("a", some demoFeat), ("b", none)]
    ∧ ("b" ∈ (processChunk demoCall1 "o" ⟨[], [], [], [], 0, 0⟩ ["a", "b"]).failed
       ∧ findA (processChunk demoCall1 "o" ⟨[], [], [], [], 0, 0⟩ ["a", "b"]).features "b"
           = some none) := by
  have h := processChunk_success_path demoCall1 "o" ⟨[], [], [], [], 0, 0⟩ ["a", "b"]
    [("a", some demoFeat), ("b", none)] (by decide) (by decide) (by decide)
  exact ⟨by decide, h.2.2.1 "b" (by decide) (Or.inr (by decide)), h.2.2.2 "b" (by decide)⟩

/-- C5 counterexample: on the empty identifier list the run does not end
normally — the success-rate computation at `spotify_client.py` line 219
divides by `len(track_uris) = 0` and raises `ZeroDivisionError` — although
the final feature-map write (line 210) has already happened. -/
theorem collect_all_empty_raises :
    (collect_all_audio_features demoCall2 [] "out.json" 50).outcome = .error ()
    ∧ WriteEvent.featuresFile "out.json"
        (collect_all_audio_features demoCall2 [] "out.json" 50).features
      ∈ (collect_all_audio_features demoCall2 [] "out.json" 50).writes :=
  ⟨rfl, by decide⟩

/-- C5 (amended to non-empty identifier lists): after all chunks are
processed the final feature map is written to the output location
unconditionally, the summary statistics are computed (requested, collected,
failed, success rate), the failure list is written to the `.failed` sibling
exactly when it is non-empty, and the run ends normally. -/
theorem collect_all_termination (call : Nat → List String → CallOutcome)
    (uris : List String) (o : String) (B : Nat) (hne : ¬ uris = []) :
    ∃ stats : RunStats,
      (collect_all_audio_features call uris o B).outcome = .ok stats
      ∧ stats.requested = uris.length
      ∧ stats.collected = countSomeA (collect_all_audio_features call uris o B).features
      ∧ stats.failedCount = (collect_all_audio_features call uris o B).failed.length
      ∧ stats.successRate
          = (countSomeA (collect_all_audio_features call uris o B).features : ℚ)
              / (uris.length : ℚ) * 100
      ∧ WriteEvent.featuresFile o (collect_all_audio_features call uris o B).features
          ∈ (collect_all_audio_features call uris o B).writes
      ∧ (WriteEvent.failedFile (o ++ ".failed")
            (collect_all_audio_features call uris o B).failed
          ∈ (collect_all_audio_features call uris o B).writes
          ↔ ¬ (collect_all_audio_features call uris o B).failed = []) := by
  have hlen : ¬ uris.length = 0 := fun h => hne (List.length_eq_zero.mp h)
  by_cases hf : (collectLoop call o uris B).failed.isEmpty
  · have hres : collect_all_audio_features call uris o B
        = ⟨(collectLoop call o uris B).features, (collectLoop call o uris B).failed,
           (collectLoop call o uris B).writes
             ++ [.featuresFile o (collectLoop call o uris B).features],
           (collectLoop call o uris B).calls,
           .ok ⟨uris.length, countSomeA (collectLoop call o uris B).features,
                (collectLoop call o uris B).failed.length,
                (countSomeA (collectLoop call o uris B).features : ℚ)
                  / (uris.length : ℚ) * 100⟩⟩ := by
      simp only [collect_all_audio_features]
      rw [if_neg hlen, if_pos hf]
    have hfailnil : (collectLoop call o uris B).failed = [] := List.isEmpty_iff.mp hf
    refine ⟨_, by rw [hres], rfl, by rw [hres], by rw [hres], by rw [hres],
      ?_, ?_⟩
    · rw [hres]
      simp
    · rw [hres]
      constructor
      · intro hmem
        rcases List.mem_append.mp hmem with h | h
        · obtain ⟨m, hm⟩ := collectLoop_writes_shape call o uris B _ h
          exact WriteEvent.noConfusion hm
        · rw [List.mem_singleton] at h
          exact WriteEvent.noConfusion h
      · intro hmem
        exact absurd hfailnil hmem
  · have hres : collect_all_audio_features call uris o B
        = ⟨(collectLoop call o uris B).features, (collectLoop call o uris B).failed,
           ((collectLoop call o uris B).writes
             ++ [.featuresFile o (collectLoop call o uris B).features])
             ++ [.failedFile (o ++ ".failed") (collectLoop call o uris B).failed],
           (collectLoop call o uris B).calls,
           .ok ⟨uris.length, countSomeA (collectLoop call o uris B).features,
                (collectLoop call o uris B).failed.length,
                (countSomeA (collectLoop call o uris B).features : ℚ)
                  / (uris.length : ℚ) * 100⟩⟩ := by
      simp only [collect_all_audio_features]
      rw [if_neg hlen, if_neg hf]
    have hfailne : ¬ (collectLoop call o uris B).failed = [] := by
      intro h
      rw [h] at hf
      simp at hf
    refine ⟨_, by rw [hres], rfl, by rw [hres], by rw [hres], by rw [hres],
      ?_, ?_⟩
    · rw [hres]
      simp
    · rw [hres]
      refine ⟨fun _ => hfailne, fun _ => ?_⟩
      simp

/-- Witness for C5 at a concrete run: one identifier whose batch returns
the empty map, so it fails; the run still ends normally with statistics. -/
theorem collect_all_termination_witness :
    ¬ (["a"] : List String) = []
    ∧ ∃ stats : RunStats,
        (collect_all_audio_features demoCall2 ["a"] "out.json" 1).outcome = .ok stats := by
  refine ⟨by decide, ?_⟩
  obtain ⟨stats, hs, _⟩ := collect_all_termination demoCall2 ["a"] "out.json" 1 (by decide)
  exact ⟨stats, hs⟩

/-- C3: the single-batch lookup never lets an exception escape to its
caller: for every input list and every service behaviour the embedded
function returns `.ok`; on a rate-limit response (status 429) it records a
sleep of the provider-suggested duration, defaulting to 60 seconds when the
`Retry-After` header is absent, and returns the empty map (no internal
retry); on any other service-level error, and on an unexpected fault, it
returns the empty map with no sleep.  (When the input list is empty the
function returns before calling the service, so no sleep happens.) -/
theorem get_audio_features_batch_no_raise (track_uris : List String) (api : ApiResult) :
    ∃ b : BatchCall, get_audio_features_batch track_uris api = .ok b
      ∧ (∀ s ra, api = .spotifyError s ra →
            b.result = []
            ∧ b.slept = if track_uris.isEmpty then none
                        else if s = 429 then some (ra.getD 60) else none)
      ∧ (api = .otherError → b.result = [] ∧ b.slept = none) := by
  by_cases hemp : track_uris.isEmpty
  · refine ⟨⟨[], [], none⟩, ?_, ?_, ?_⟩
    · simp [get_audio_features_batch, hemp]
    · intro s ra _
      simp [hemp]
    · intro _
      exact ⟨rfl, rfl⟩
  · cases api with
    | ok fl =>
      cases hm : mapResultsGo []
          (if track_uris.length > 100 then track_uris.take 100 else track_uris) fl with
      | ok m =>
        refine ⟨⟨(if track_uris.length > 100 then track_uris.take 100
            else track_uris).map extract_track_id_from_uri, m, none⟩, ?_, ?_, ?_⟩
        · simp [get_audio_features_batch, hemp, audioFeaturesCall, hm]
        · intro s ra h
          exact ApiResult.noConfusion h
        · intro h
          exact ApiResult.noConfusion h
      | error e =>
        have hb : ∃ b : BatchCall,
            get_audio_features_batch track_uris (.ok fl) = .ok b ∧ b.result = [] := by
          cases e with
          | spotify s ra =>
            by_cases h429 : s = 429
            · exact ⟨⟨(if track_uris.length > 100 then track_uris.take 100
                  else track_uris).map extract_track_id_from_uri, [], some (ra.getD 60)⟩,
                by simp [get_audio_features_batch, hemp, audioFeaturesCall, hm, h429], rfl⟩
            · exact ⟨⟨(if track_uris.length > 100 then track_uris.take 100
                  else track_uris).map extract_track_id_from_uri, [], none⟩,
                by simp [get_audio_features_batch, hemp, audioFeaturesCall, hm, h429], rfl⟩
          | indexErr =>
            exact ⟨⟨(if track_uris.length > 100 then track_uris.take 100
                else track_uris).map extract_track_id_from_uri, [], none⟩,
              by simp [get_audio_features_batch, hemp, audioFeaturesCall, hm], rfl⟩
          | otherExn =>
            exact ⟨⟨(if track_uris.length > 100 then track_uris.take 100
                else track_uris).map extract_track_id_from_uri, [], none⟩,
              by simp [get_audio_features_batch, hemp, audioFeaturesCall, hm], rfl⟩
        obtain ⟨b, hok, _⟩ := hb
        exact ⟨b, hok, fun s ra h => ApiResult.noConfusion h,
          fun h => ApiResult.noConfusion h⟩
    | spotifyError s ra =>
      by_cases h429 : s = 429
      · refine ⟨⟨(if track_uris.length > 100 then track_uris.take 100
            else track_uris).map extract_track_id_from_uri, [], some (ra.getD 60)⟩,
            ?_, ?_, ?_⟩
        · simp [get_audio_features_batch, hemp, audioFeaturesCall, h429]
        · intro s2 ra2 h
          injection h with h1 h2
          subst h1
          subst h2
          exact ⟨rfl, by simp [hemp, h429]⟩
        · intro h
          exact ApiResult.noConfusion h
      · refine ⟨⟨(if track_uris.length > 100 then track_uris.take 100
            else track_uris).map extract_track_id_from_uri, [], none⟩, ?_, ?_, ?_⟩
        · simp [get_audio_features_batch, hemp, audioFeaturesCall, h429]
        · intro s2 ra2 h
          injection h with h1 h2
          subst h1
          subst h2
          exact ⟨rfl, by simp [hemp, h429]⟩
        · intro h
          exact ApiResult.noConfusion h
    | otherError =>
      refine ⟨⟨(if track_uris.length > 100 then track_uris.take 100
          else track_uris).map extract_track_id_from_uri, [], none⟩, ?_, ?_, ?_⟩
      · simp [get_audio_features_batch, hemp, audioFeaturesCall]
      · intro s ra h
        exact ApiResult.noConfusion h
      · intro _
        exact ⟨rfl, rfl⟩

/-- Witness for C3 at a concrete rate-limited call with no Retry-After
header: empty result and a 60-second sleep. -/
theorem get_audio_features_batch_no_raise_witness :
    ∃ b : BatchCall,
      get_audio_features_batch ["x"] (.spotifyError 429 none) = .ok b
      ∧ b.result = [] ∧ b.slept = some 60 := by
  obtain ⟨b, hok, hsp, _⟩ :=
    get_audio_features_batch_no_raise ["x"] (.spotifyError 429 none)
  obtain ⟨hres, hslept⟩ := hsp 429 none rfl
  refine ⟨b, hok, hres, ?_⟩
  rw [hslept]
  simp

theorem mapResultsGo_eq (us : List String) :
    ∀ (fs : List (Option ApiFeatures)) (acc : List (String × Option AudioFeatures)),
      us.Nodup → (∀ u ∈ us, u ∉ keysA acc) → fs.length = us.length →
      mapResultsGo acc us fs
        = .ok (acc ++ (us.zip fs).map (fun uf => (uf.1, uf.2.map toAudioFeatures))) := by
  induction us with
  | nil =>
    intro fs acc _ _ hlen
    match fs with
    | [] => simp [mapResultsGo]
    | f :: fs2 => simp at hlen
  | cons u us2 ih =>
    intro fs acc hnd hdisj hlen
    match fs with
    | [] => simp at hlen
    | f :: fs2 =>
      rw [List.nodup_cons] at hnd
      have hnotin : u ∉ keysA acc := hdisj u (by simp)
      have hins : insertA u (f.map toAudioFeatures) acc
          = acc ++ [(u, f.map toAudioFeatures)] :=
        insertA_of_not_mem u _ acc hnotin
      have hdisj2 : ∀ v ∈ us2, v ∉ keysA (acc ++ [(u, f.map toAudioFeatures)]) := by
        intro v hv
        rw [keysA_append]
        simp only [List.mem_append]
        push_neg
        constructor
        · exact hdisj v (List.mem_cons_of_mem _ hv)
        · simp only [keysA, List.map_cons, List.map_nil, List.mem_singleton]
          intro hveq
          exact hnd.1 (hveq ▸ hv)
      have hlen2 : fs2.length = us2.length := by simpa using hlen
      simp only [mapResultsGo]
      rw [hins, ih fs2 _ hnd.2 hdisj2 hlen2, List.zip_cons_cons, List.map_cons,
          List.append_assoc]
      simp

/-- C6 counterexample: the code normalizes by taking the substring after
the last colon (`track_uri.split(":")[-1]`), which differs from "stripping
a 'spotify:track:' prefix" on an identifier whose bare part itself contains
a colon: for `"spotify:track:a:b"` the code sends `"b"` to the service,
whereas prefix-stripping would send `"a:b"`. -/
theorem extract_track_id_not_strip :
    extract_track_id_from_uri "spotify:track:a:b" = "b"
    ∧ spec_normalize_uri "spotify:track:a:b" = "a:b"
    ∧ ¬ extract_track_id_from_uri "spotify:track:a:b"
        = spec_normalize_uri "spotify:track:a:b"
    ∧ get_audio_features_batch ["spotify:track:a:b"] (.ok [none])
        = .ok ⟨["b"], [("spotify:track:a:b", none)], none⟩ :=
  ⟨by decide, by decide, by decide, rfl⟩

/-- C6 (amended: normalization sends the last colon-separated segment when
the `spotify:track:` prefix is present, the unchanged string otherwise):
of an input list, only the first 100 identifiers are attempted; each
attempted identifier is normalized by `extract_track_id_from_uri` before
being sent; and when the service answers slot-for-slot, the returned map is
keyed by exactly the original attempted identifier strings (prefix form
preserved), each mapped to the field-for-field translated record or to the
null marker of its slot. -/
theorem get_batch_truncation_mapping (track_uris : List String)
    (fl : List (Option ApiFeatures)) (hnd : track_uris.Nodup)
    (hlen : fl.length = (track_uris.take 100).length) :
    ∃ b : BatchCall,
      get_audio_features_batch track_uris (.ok fl) = .ok b
      ∧ b.sent = (track_uris.take 100).map extract_track_id_from_uri
      ∧ b.result = ((track_uris.take 100).zip fl).map
          (fun uf => (uf.1, uf.2.map toAudioFeatures))
      ∧ keysA b.result = track_uris.take 100 := by
  by_cases hemp : track_uris.isEmpty
  · have he : track_uris = [] := List.isEmpty_iff.mp hemp
    subst he
    have hfl : fl = [] := by
      simpa using hlen
    subst hfl
    exact ⟨⟨[], [], none⟩, by simp [get_audio_features_batch], rfl, rfl, rfl⟩
  · have huris : (if track_uris.length > 100 then track_uris.take 100 else track_uris)
        = track_uris.take 100 := by
      split_ifs with h
      · rfl
      · rw [List.take_of_length_le (by omega)]
    have hnd100 : (track_uris.take 100).Nodup :=
      (List.take_sublist 100 track_uris).nodup hnd
    have hmap := mapResultsGo_eq (track_uris.take 100) fl [] hnd100
      (by intro u _; simp [keysA]) hlen
    refine ⟨⟨(track_uris.take 100).map extract_track_id_from_uri,
        ((track_uris.take 100).zip fl).map (fun uf => (uf.1, uf.2.map toAudioFeatures)),
        none⟩, ?_, rfl, rfl, ?_⟩
    · simp only [get_audio_features_batch, audioFeaturesCall, huris]
      rw [if_neg hemp, hmap]
      simp
    · simp only [keysA, List.map_map]
      have hcomp : ((fun p : String × Option AudioFeatures => p.1)
          ∘ fun uf : String × Option ApiFeatures => (uf.1, uf.2.map toAudioFeatures))
          = fun uf : String × Option ApiFeatures => uf.1 := rfl
      rw [show (Prod.fst ∘ fun uf : String × Option ApiFeatures =>
            (uf.1, uf.2.map toAudioFeatures)) = Prod.fst from rfl]
      exact List.map_fst_zip _ _ (le_of_eq hlen.symm)

/-- Witness for C6 at a concrete two-identifier batch: the prefixed URI is
normalized for sending but preserved as a result key. -/
theorem get_batch_truncation_mapping_witness :
    (["spotify:track:xyz", "b"] : List String).Nodup
    ∧ ∃ b : BatchCall,
        get_audio_features_batch ["spotify:track:xyz", "b"]
            (.ok [some demoApiFeat, none]) = .ok b
        ∧ b.sent = ["xyz", "b"]
        ∧ keysA b.result = ["spotify:track:xyz", "b"] := by
  obtain ⟨b, hok, hsent, hres, hkeys⟩ := get_batch_truncation_mapping
    ["spotify:track:xyz", "b"] [some demoApiFeat, none] (by decide) (by decide)
  refine ⟨by decide, b, hok, ?_, ?_⟩
  · rw [hsent]
    decide
  · rw [hkeys]
    decide

/-!
## Extractor lemmas
-/

theorem processTrack_unique (st : ExtractState) (t : MpdTrack) :
    (processTrack st t).unique_tracks
      = if findA st.unique_tracks t.track_uri = none
        then insertA t.track_uri (mkTrackRecord t) st.unique_tracks
        else st.unique_tracks := by
  unfold processTrack
  split_ifs with h <;> rfl

theorem processTrack_freq (st : ExtractState) (t : MpdTrack) :
    (processTrack st t).track_frequency
      = insertA t.track_uri ((findA st.track_frequency t.track_uri).getD 0 + 1)
          st.track_frequency := by
  unfold processTrack
  split_ifs <;> rfl

theorem processSlice_eq_trackFold (fs : List SliceFile) :
    ∀ st : ExtractState,
      fs.foldl processSlice st = (parsedTracks fs).foldl processTrack st := by
  induction fs with
  | nil => intro st; rfl
  | cons f t ih =>
    intro st
    rw [List.foldl_cons, ih]
    cases f with
    | malformed => simp [processSlice, parsedTracks]
    | parsed pls => simp [processSlice, parsedTracks, List.foldl_append]

theorem extractCore_eq_trackFold (files : List SliceFile) (mf : Option Nat) :
    extractCore files mf
      = (parsedTracks (takeIfSome mf files)).foldl processTrack ⟨[], [], 0⟩ := by
  unfold extractCore
  exact processSlice_eq_trackFold (takeIfSome mf files) ⟨[], [], 0⟩

theorem trackFold_unique_preserve (ts : List MpdTrack) :
    ∀ (st : ExtractState) (u : String) (r : TrackRecord),
      findA st.unique_tracks u = some r →
      findA ((ts.foldl processTrack st).unique_tracks) u = some r := by
  induction ts with
  | nil => intro st u r h; exact h
  | cons t ts2 ih =>
    intro st u r h
    rw [List.foldl_cons]
    apply ih
    rw [processTrack_unique]
    split_ifs with hnew
    · have hne : ¬ t.track_uri = u := by
        intro he
        rw [he, h] at hnew
        exact Option.noConfusion hnew
      rw [findA_insertA, if_neg hne]
      exact h
    · exact h

theorem trackFold_find (ts : List MpdTrack) :
    ∀ (st : ExtractState) (u : String), findA st.unique_tracks u = none →
      findA ((ts.foldl processTrack st).unique_tracks) u
        = (ts.find? (fun t => t.track_uri == u)).map mkTrackRecord := by
  induction ts with
  | nil => intro st u h; simpa using h
  | cons t ts2 ih =>
    intro st u h
    rw [List.foldl_cons]
    by_cases htu : t.track_uri = u
    · rw [List.find?_cons_of_pos _ (by simp [htu])]
      apply trackFold_unique_preserve
      rw [processTrack_unique, if_pos (by rw [htu]; exact h)]
      rw [findA_insertA, if_pos htu]
    · rw [List.find?_cons_of_neg _ (by simp [htu])]
      apply ih
      rw [processTrack_unique]
      split_ifs with hnew
      · rw [findA_insertA, if_neg htu]
        exact h
      · exact h

theorem trackFold_freq_count (ts : List MpdTrack) :
    ∀ (st : ExtractState) (u : String),
      findA ((ts.foldl processTrack st).track_frequency) u
        = if ts.countP (fun t => t.track_uri == u) = 0
          then findA st.track_frequency u
          else some ((findA st.track_frequency u).getD 0
              + ts.countP (fun t => t.track_uri == u)) := by
  induction ts with
  | nil => intro st u; simp
  | cons t ts2 ih =>
    intro st u
    rw [List.foldl_cons, ih]
    by_cases htu : t.track_uri = u
    · have hfrq : (processTrack st t).track_frequency
          = insertA u ((findA st.track_frequency u).getD 0 + 1) st.track_frequency := by
        rw [processTrack_freq, htu]
      have hself : findA ((processTrack st t).track_frequency) u
          = some ((findA st.track_frequency u).getD 0 + 1) := by
        rw [hfrq, findA_insertA, if_pos rfl]
      have hcnt : (t :: ts2).countP (fun t => t.track_uri == u)
          = ts2.countP (fun t => t.track_uri == u) + 1 := by
        rw [List.countP_cons]
        simp [htu]
      rw [hself, hcnt]
      simp only [Option.getD_some]
      by_cases hc2 : ts2.countP (fun t => t.track_uri == u) = 0
      · rw [if_pos hc2, hc2, if_neg (by omega)]
      · rw [if_neg hc2, if_neg (by omega)]
        exact congrArg some (by omega)
    · have hfrq2 : findA ((processTrack st t).track_frequency) u
          = findA st.track_frequency u := by
        rw [processTrack_freq, findA_insertA, if_neg htu]
      have hcnt : (t :: ts2).countP (fun t => t.track_uri == u)
          = ts2.countP (fun t => t.track_uri == u) := by
        rw [List.countP_cons]
        simp [htu]
      rw [hfrq2, hcnt]

theorem trackFold_keys_nodup (ts : List MpdTrack) :
    ∀ st : ExtractState, (keysA st.unique_tracks).Nodup →
      (keysA ((ts.foldl processTrack st).unique_tracks)).Nodup := by
  induction ts with
  | nil => intro st h; exact h
  | cons t ts2 ih =>
    intro st h
    rw [List.foldl_cons]
    apply ih
    rw [processTrack_unique]
    split_ifs with hnew
    · exact nodup_keysA_insertA _ _ _ h
    · exact h

theorem trackFold_keys_mem (ts : List MpdTrack) :
    ∀ (st : ExtractState) (u : String),
      (u ∈ keysA ((ts.foldl processTrack st).unique_tracks))
        ↔ u ∈ keysA st.unique_tracks ∨ u ∈ ts.map MpdTrack.track_uri := by
  induction ts with
  | nil => intro st u; simp
  | cons t ts2 ih =>
    intro st u
    rw [List.foldl_cons, ih, List.map_cons, List.mem_cons]
    rw [processTrack_unique]
    split_ifs with hnew
    · rw [mem_keysA_insertA]
      tauto
    · have hmem : t.track_uri ∈ keysA st.unique_tracks :=
        (mem_keysA_iff_findA _ _).mpr hnew
      constructor
      · rintro (h | h)
        · exact Or.inl h
        · exact Or.inr (Or.inr h)
      · rintro (h | h | h)
        · exact Or.inl h
        · exact Or.inl (h ▸ hmem)
        · exact Or.inr h

theorem trackFold_freq_sum (ts : List MpdTrack) :
    ∀ st : ExtractState,
      sumValsA ((ts.foldl processTrack st).track_frequency)
        = sumValsA st.track_frequency + ts.length := by
  induction ts with
  | nil => intro st; simp
  | cons t ts2 ih =>
    intro st
    rw [List.foldl_cons, ih, processTrack_freq, sumValsA_bump, List.length_cons]
    omega

/-- C10: the record stored for an identifier is the metadata of its first
occurrence in scan order (later occurrences never overwrite any field), and
the frequency entry of an identifier counts exactly its occurrences across
the scanned track entries (absent when it never occurs). -/
theorem extract_first_occurrence_wins (files : List SliceFile) (mf : Option Nat)
    (u : String) :
    findA ((extractCore files mf).unique_tracks) u
      = ((parsedTracks (takeIfSome mf files)).find? (fun t => t.track_uri == u)).map
          mkTrackRecord
    ∧ findA ((extractCore files mf).track_frequency) u
      = (if (parsedTracks (takeIfSome mf files)).countP (fun t => t.track_uri == u) = 0
         then none
         else some ((parsedTracks (takeIfSome mf files)).countP
            (fun t => t.track_uri == u))) := by
  rw [extractCore_eq_trackFold]
  refine ⟨trackFold_find _ _ u rfl, ?_⟩
  have h := trackFold_freq_count (parsedTracks (takeIfSome mf files)) ⟨[], [], 0⟩ u
  rw [h]
  split_ifs
  · rfl
  · simp [findA]

/-- C7 counterexample: on an input with no track entries (no files, or a
parsed file with no playlists), `extract_unique_tracks_from_mpd` does not
return — the average-frequency log line (`extractors.py` line 74) divides
by `len(unique_tracks) = 0` and raises `ZeroDivisionError`. -/
theorem extract_empty_raises :
    extract_unique_tracks_from_mpd [] none = .error ()
    ∧ extract_unique_tracks_from_mpd [SliceFile.parsed []] none = .error () :=
  ⟨rfl, rfl⟩

/-- C7 (amended to inputs with at least one parsed track entry): the number
of stored unique tracks equals the number of distinct identifier values
across all track entries of all parsed files, and the frequency counts sum
to the total number of track entries of those files. -/
theorem extract_counts (files : List SliceFile) (mf : Option Nat)
    (h : ¬ parsedTracks (takeIfSome mf files) = []) :
    ∃ st : ExtractState,
      extract_unique_tracks_from_mpd files mf = .ok st
      ∧ st.unique_tracks.length
          = ((parsedTracks (takeIfSome mf files)).map MpdTrack.track_uri).dedup.length
      ∧ sumValsA st.track_frequency = (parsedTracks (takeIfSome mf files)).length := by
  have hcore := extractCore_eq_trackFold files mf
  have hnd : (keysA ((extractCore files mf).unique_tracks)).Nodup := by
    rw [hcore]
    exact trackFold_keys_nodup _ _ (by simp [keysA])
  have hmem : ∀ u, u ∈ keysA ((extractCore files mf).unique_tracks)
      ↔ u ∈ (parsedTracks (takeIfSome mf files)).map MpdTrack.track_uri := by
    intro u
    rw [hcore, trackFold_keys_mem _ _ u]
    simp [keysA]
  have hlenkeys : (extractCore files mf).unique_tracks.length
      = ((parsedTracks (takeIfSome mf files)).map MpdTrack.track_uri).dedup.length := by
    have h1 : (extractCore files mf).unique_tracks.length
        = (keysA ((extractCore files mf).unique_tracks)).length := by
      simp [keysA]
    rw [h1, ← List.toFinset_card_of_nodup hnd, ← List.card_toFinset]
    congr 1
    apply Finset.ext
    intro a
    simp only [List.mem_toFinset]
    exact hmem a
  have hsum : sumValsA ((extractCore files mf).track_frequency)
      = (parsedTracks (takeIfSome mf files)).length := by
    rw [hcore]
    have h2 := trackFold_freq_sum (parsedTracks (takeIfSome mf files)) ⟨[], [], 0⟩
    simpa [sumValsA] using h2
  have hne0 : ¬ (extractCore files mf).unique_tracks.length = 0 := by
    rw [hlenkeys]
    intro h0
    rw [List.length_eq_zero, List.dedup_eq_nil, List.map_eq_nil_iff] at h0
    exact h h0
  refine ⟨extractCore files mf, ?_, hlenkeys, hsum⟩
  unfold extract_unique_tracks_from_mpd
  rw [if_neg hne0]

/-- Witness for C7 at a concrete input: one parsed file with two track
entries sharing one identifier. -/
theorem extract_counts_witness :
    ¬ parsedTracks (takeIfSome none [SliceFile.parsed [[demoTrack, demoTrack2]]]) = []
    ∧ ∃ st : ExtractState,
        extract_unique_tracks_from_mpd [SliceFile.parsed [[demoTrack, demoTrack2]]] none
          = .ok st
        ∧ st.unique_tracks.length = 1
        ∧ sumValsA st.track_frequency = 2 := by
  obtain ⟨st, hok, hlen, hsum⟩ :=
    extract_counts [SliceFile.parsed [[demoTrack, demoTrack2]]] none (by decide)
  refine ⟨by decide, st, hok, ?_, ?_⟩
  · rw [hlen]
    decide
  · rw [hsum]
    decide

/-- C8: a file that fails to parse is skipped with the state unchanged, so
the extraction result — the unique-track map, the frequency table, and even
the raising behaviour of the final logging line — equals the result of
extracting from the well-formed files alone. -/
theorem extract_skips_malformed (files : List SliceFile) (mf : Option Nat) :
    (∀ st : ExtractState, processSlice st SliceFile.malformed = st)
    ∧ extractCore files mf = extractCore ((takeIfSome mf files).filter isParsedSlice) none
    ∧ extract_unique_tracks_from_mpd files mf
        = extract_unique_tracks_from_mpd ((takeIfSome mf files).filter isParsedSlice) none := by
  have hfold : ∀ (fs : List SliceFile) (st : ExtractState),
      fs.foldl processSlice st = (fs.filter isParsedSlice).foldl processSlice st := by
    intro fs
    induction fs with
    | nil => intro st; rfl
    | cons f t ih =>
      intro st
      cases f with
      | malformed =>
        rw [List.foldl_cons, List.filter_cons]
        simp only [isParsedSlice, Bool.false_eq_true, if_false]
        rw [show processSlice st SliceFile.malformed = st from rfl]
        exact ih st
      | parsed pls =>
        rw [List.foldl_cons, List.filter_cons]
        simp only [isParsedSlice, if_true]
        rw [List.foldl_cons]
        exact ih _
  have hcore : extractCore files mf
      = extractCore ((takeIfSome mf files).filter isParsedSlice) none := by
    unfold extractCore
    rw [hfold]
    rfl
  refine ⟨fun st => rfl, hcore, ?_⟩
  unfold extract_unique_tracks_from_mpd
  rw [hcore]

/-- C9: given a successful extraction, the driver enters the enrichment
stage exactly when both credential values are truthy (in particular only
when both are present); when either is absent the stage is skipped and the
driver exits normally; and when the stage is entered, a failure of
collector construction or of the collection run is caught and logged and
the driver still exits normally. -/
theorem main_credential_gating (clientId clientSecret : Option String)
    (files : List SliceFile) (cok : Bool) (call : Nat → List String → CallOutcome)
    (st : ExtractState)
    (hex : extract_unique_tracks_from_mpd files (some 5) = .ok st) :
    ∃ d : DriverResult,
      main clientId clientSecret files cok call = .ok d
      ∧ d.cleanExit = true
      ∧ d.enrichmentAttempted = (truthy clientId && truthy clientSecret)
      ∧ (d.enrichmentAttempted = true → ¬ clientId = none ∧ ¬ clientSecret = none)
      ∧ ((clientId = none ∨ clientSecret = none) → d.enrichmentAttempted = false)
      ∧ (cok = false → d.enrichmentAttempted = true → d.enrichmentErrorLogged = true)
      ∧ ((collect_all_audio_features call (keysA st.unique_tracks)
            "data/interim/audio_features.json" 100).outcome = .error () →
          d.enrichmentAttempted = true → cok = true →
          d.enrichmentErrorLogged = true) := by
  by_cases hcred : (truthy clientId && truthy clientSecret) = true
  · have hpres : ¬ clientId = none ∧ ¬ clientSecret = none := by
      rw [Bool.and_eq_true] at hcred
      constructor
      · intro h
        rw [h] at hcred
        simp [truthy] at hcred
      · intro h
        rw [h] at hcred
        simp [truthy] at hcred
    by_cases hcok : cok = true
    · cases hout : (collect_all_audio_features call (keysA st.unique_tracks)
          "data/interim/audio_features.json" 100).outcome with
      | ok stats =>
        refine ⟨⟨true, false, true,
            some (collect_all_audio_features call (keysA st.unique_tracks)
              "data/interim/audio_features.json" 100).features⟩, ?_, rfl,
            hcred.symm, fun _ => hpres, ?_, ?_, ?_⟩
        · simp only [main, hex]
          rw [if_pos hcred, if_pos hcok, hout]
        · rintro (h | h)
          · exact absurd h hpres.1
          · exact absurd h hpres.2
        · intro h _
          exact Bool.noConfusion (h.symm.trans hcok)
        · intro h1 _ _
          exact Except.noConfusion h1
      | error e =>
        refine ⟨⟨true, true, true, none⟩, ?_, rfl, hcred.symm, fun _ => hpres,
            ?_, ?_, ?_⟩
        · simp only [main, hex]
          rw [if_pos hcred, if_pos hcok, hout]
        · rintro (h | h)
          · exact absurd h hpres.1
          · exact absurd h hpres.2
        · intro h _
          exact Bool.noConfusion (h.symm.trans hcok)
        · intro _ _ _
          rfl
    · refine ⟨⟨true, true, true, none⟩, ?_, rfl, hcred.symm, fun _ => hpres,
          ?_, ?_, ?_⟩
      · simp only [main, hex]
        rw [if_pos hcred, if_neg hcok]
      · rintro (h | h)
        · exact absurd h hpres.1
        · exact absurd h hpres.2
      · intro _ _
        rfl
      · intro _ _ h
        exact absurd h hcok
  · have hatt : false = (truthy clientId && truthy clientSecret) := by
      rw [Bool.not_eq_true] at hcred
      exact hcred.symm
    refine ⟨⟨false, false, true, none⟩, ?_, rfl, hatt, ?_, fun _ => rfl, ?_, ?_⟩
    · simp only [main, hex]
      rw [if_neg hcred]
    · intro h
      exact Bool.noConfusion h
    · intro _ h
      exact Bool.noConfusion h
    · intro _ h
      exact Bool.noConfusion h

/-- Witness for C9 at a concrete input: one parsed file, both credentials
absent — enrichment is skipped and the driver exits normally. -/
theorem main_credential_gating_witness :
    extract_unique_tracks_from_mpd [SliceFile.parsed [[demoTrack]]] (some 5)
      = .ok ⟨[("a", mkTrackRecord demoTrack)], [("a", 1)], 1⟩
    ∧ ∃ d : DriverResult,
        main none none [SliceFile.parsed [[demoTrack]]] true demoCall2 = .ok d
        ∧ d.cleanExit = true ∧ d.enrichmentAttempted = false := by
  have hex : extract_unique_tracks_from_mpd [SliceFile.parsed [[demoTrack]]] (some 5)
      = .ok ⟨[("a", mkTrackRecord demoTrack)], [("a", 1)], 1⟩ := rfl
  obtain ⟨d, hok, hclean, _, _, habs, _, _⟩ :=
    main_credential_gating none none [SliceFile.parsed [[demoTrack]]] true demoCall2 _ hex
  exact ⟨hex, d, hok, hclean, habs (Or.inl rfl)⟩

theorem mapResultsGo_keys (us : List String) :
    ∀ (fs : List (Option ApiFeatures)) (acc m : List (String × Option AudioFeatures)),
      mapResultsGo acc us fs = .ok m →
      (∀ k, k ∈ keysA m → k ∈ keysA acc ∨ k ∈ us)
      ∧ ((keysA acc).Nodup → (keysA m).Nodup) := by
  induction us with
  | nil =>
    intro fs acc m h
    match fs with
    | [] =>
      simp only [mapResultsGo, Except.ok.injEq] at h
      subst h
      exact ⟨fun k hk => Or.inl hk, fun hn => hn⟩
    | f :: fs2 => exact absurd h (by simp [mapResultsGo])
  | cons u us2 ih =>
    intro fs acc m h
    match fs with
    | [] =>
      simp only [mapResultsGo, Except.ok.injEq] at h
      subst h
      exact ⟨fun k hk => Or.inl hk, fun hn => hn⟩
    | f :: fs2 =>
      simp only [mapResultsGo] at h
      obtain ⟨hsub, hnd⟩ := ih fs2 _ m h
      constructor
      · intro k hk
        rcases hsub k hk with hk2 | hk2
        · rcases (mem_keysA_insertA _ _ _ k).mp hk2 with hk3 | hk3
          · exact Or.inr (hk3 ▸ List.mem_cons_self u us2)
          · exact Or.inl hk3
        · exact Or.inr (List.mem_cons_of_mem _ hk2)
      · intro hn
        exact hnd (nodup_keysA_insertA _ _ _ hn)

/-- Supporting fact bridging the orchestrator's oracle hypothesis to the
actual batch call: whenever `get_audio_features_batch` returns, the keys of
the returned map are drawn from the submitted URI list and are unique —
exactly the `chunkGoodP` condition assumed of the oracle in the invariant
theorems. -/
theorem get_audio_features_batch_keys (track_uris : List String) (api : ApiResult)
    (b : BatchCall) (h : get_audio_features_batch track_uris api = .ok b) :
    (∀ k, k ∈ keysA b.result → k ∈ track_uris) ∧ (keysA b.result).Nodup := by
  have hnilgood : (∀ k, k ∈ keysA ([] : List (String × Option AudioFeatures))
      → k ∈ track_uris) ∧ (keysA ([] : List (String × Option AudioFeatures))).Nodup :=
    ⟨fun k hk => by simp [keysA] at hk, by simp [keysA]⟩
  by_cases hemp : track_uris.isEmpty
  · simp only [get_audio_features_batch, hemp, if_true, Except.ok.injEq] at h
    rw [← h]
    exact hnilgood
  · rw [get_audio_features_batch, if_neg hemp] at h
    cases api with
    | ok fl =>
      simp only [audioFeaturesCall] at h
      cases hm : mapResultsGo []
          (if track_uris.length > 100 then track_uris.take 100 else track_uris) fl with
      | ok m =>
        rw [hm] at h
        simp only [Except.ok.injEq] at h
        obtain ⟨hsub, hnd⟩ := mapResultsGo_keys _ fl [] m hm
        rw [← h]
        constructor
        · intro k hk
          rcases hsub k hk with hk2 | hk2
          · simp [keysA] at hk2
          · split_ifs at hk2 with h100
            · exact (List.take_sublist 100 track_uris).subset hk2
            · exact hk2
        · exact hnd (by simp [keysA])
      | error e =>
        rw [hm] at h
        cases e with
        | spotify s ra =>
          by_cases h429 : s = 429 <;>
            simp only [h429, if_true, if_false, Except.ok.injEq] at h <;>
            rw [← h] <;> exact hnilgood
        | indexErr =>
          simp only [Except.ok.injEq] at h
          rw [← h]
          exact hnilgood
        | otherExn =>
          simp only [Except.ok.injEq] at h
          rw [← h]
          exact hnilgood
    | spotifyError s ra =>
      simp only [audioFeaturesCall] at h
      by_cases h429 : s = 429 <;>
        simp only [h429, if_true, if_false, Except.ok.injEq] at h <;>
        rw [← h] <;> exact hnilgood
    | otherError =>
      simp only [audioFeaturesCall, Except.ok.injEq] at h
      rw [← h]
      exact hnilgood

end Enrich
